import Mathlib

/-!
Verification development for the chat-bridge relay.

The Python sources are shallowly embedded here:

* `chat_bridge/discord.py` : `Bot.format_irc_message` (escaping and style
  wrapping of parsed IRC chunks) and `Bot.relay_irc_message` (message
  formatting and bracket-mention resolution).
* `chat_bridge/ircclient.py` : `Bot.sanitize_name` and
  `Bot.sanitize_irc_names` (nick-ping sanitization, modelling Python's
  `re.sub` scan over the two-group alternation pattern).
* `chat_bridge/events.py` : `Dispatcher.dispatch` and the event
  constructors.
* `chat_bridge/utils.py` : `ObjectLike`.

Text is modelled as `List Char`.  Python's `str.isalnum` and
`re.IGNORECASE` are Unicode-aware; they are modelled with `Char.isAlphanum`
and `Char.toLower`, which agree with Python on the ASCII range used by all
concrete inputs in this development.
-/

namespace ChatBridge

/-! ## Formatting translator (`discord.py`, `Bot.format_irc_message`) -/

/-- First escape pass of `format_irc_message`:
`text = text.replace("\\", "\\\\")` — every backslash is doubled. -/
def escBackslash : List Char → List Char
  | [] => []
  | c :: cs => if c = '\\' then '\\' :: '\\' :: escBackslash cs else c :: escBackslash cs

/-- Second escape pass of `format_irc_message`:
`text = text.replace(char, "\\" + char)` for `char` ranging over `("<",)` —
every `<` gets a backslash prefixed. -/
def escLt : List Char → List Char
  | [] => []
  | c :: cs => if c = '<' then '\\' :: '<' :: escLt cs else c :: escLt cs

/-- The complete escape step of `format_irc_message`: backslashes are doubled
first, then `<` is backslash-prefixed. -/
def escape (t : List Char) : List Char := escLt (escBackslash t)

/-- A parsed IRC chunk as produced by pypeul's `Tags.parse` (external
library): a text run together with the list of active tag names.  The
formatting translator consumes a list of such chunks. -/
structure Chunk where
  text : List Char
  tags : List String

/-- One conditional style wrap of `format_irc_message`:
`if tag in chunk.tags: text = marker + text + marker`. -/
def wrapTag (cond : Bool) (marker : List Char) (t : List Char) : List Char :=
  if cond then marker ++ t ++ marker else t

/-- Per-chunk processing of `format_irc_message`: escape the chunk text, then
either emit it raw (`reset` tag) or wrap it in destination markers in the
source's fixed order bold, monospace, italics, strikethrough, underline. -/
def renderChunk (chunk : Chunk) : List Char :=
  if "reset" ∈ chunk.tags then escape chunk.text
  else
    wrapTag (decide ("underline" ∈ chunk.tags)) "__".toList
      (wrapTag (decide ("strikethrough" ∈ chunk.tags)) "~~".toList
        (wrapTag (decide ("italics" ∈ chunk.tags)) "*".toList
          (wrapTag (decide ("monospace" ∈ chunk.tags)) "\x60".toList
            (wrapTag (decide ("bold" ∈ chunk.tags)) "**".toList (escape chunk.text)))))

/-- `Bot.format_irc_message`: fold over the parsed chunk list, accumulating
`ret += text`. -/
def format_irc_message (chunks : List Chunk) : List Char :=
  chunks.foldl (fun ret chunk => ret ++ renderChunk chunk) []

/-- Checker for the escape guarantee: scanning with the previous character in
hand, every `<` must be immediately preceded by a backslash. -/
def ltSafeFrom (prev : Char) : List Char → Bool
  | [] => true
  | c :: cs => ((c != '<') || (prev == '\\')) && ltSafeFrom c cs

/-- A character list has no unescaped `<`: it does not start with `<`, and
every later `<` is immediately preceded by a backslash. -/
def ltSafe : List Char → Bool
  | [] => true
  | c :: cs => (c != '<') && ltSafeFrom c cs

/-! ## Nick sanitizer (`ircclient.py`, `Bot.sanitize_name` and
`Bot.sanitize_irc_names`)

`sanitize_irc_names` compiles the pattern
`\[(n1|n2|...)\]|(n1|n2|...)` with `re.IGNORECASE` from the nicknames
sorted by length descending, and rewrites the text with
`full_pattern.sub(replacement_callback, text)`.  The alternatives are
`re.escape`d literals, so matching is modelled directly: Python's engine
scans left to right, tries the bracketed branch before the bare branch at
each position, tries alternatives in pattern order, and resumes after the
end of each match. -/

/-- `Bot.sanitize_name`: `name[0] + "\ufeff" + name[1:]` — the code point
U+FEFF (zero-width no-break space) is inserted after the first character.
(Python raises on an empty name; callers only pass nonempty matches.) -/
def sanitize_name (name : List Char) : List Char :=
  name.take 1 ++ '\uFEFF' :: name.drop 1

/-- Stable insertion into a length-descending list: the new element goes in
front of the first element whose length is not larger. -/
def insertByLenDesc (n : List Char) : List (List Char) → List (List Char)
  | [] => [n]
  | m :: ms => if m.length ≤ n.length then n :: m :: ms else m :: insertByLenDesc n ms

/-- `sorted([n for n in nicks if n], key=len, reverse=True)`: drop empty
nicknames, then stable-sort by length, descending (implemented as a stable
insertion sort, which agrees with Python's stable `sorted`). -/
def sortNicksDesc (nicks : List (List Char)) : List (List Char) :=
  (nicks.filter (fun n => !n.isEmpty)).foldr insertByLenDesc []

/-- Case-insensitive character comparison, modelling `re.IGNORECASE` (exact
on the ASCII range used here). -/
def ciEq (a b : Char) : Bool := a.toLower == b.toLower

/-- Match the literal alternative `alt` case-insensitively against a prefix
of `s`; on success return the matched prefix of `s` (with its original
casing, as Python's `match.group` does) and the remaining suffix. -/
def matchCI : List Char → List Char → Option (List Char × List Char)
  | [], s => some ([], s)
  | _ :: _, [] => none
  | a :: as, c :: cs =>
    if ciEq a c then
      match matchCI as cs with
      | some (m, r) => some (c :: m, r)
      | none => none
    else none

/-- Try the alternatives of a capture group in pattern order (Python's
alternation is leftmost-alternative-first) and return the first match. -/
def tryAlts (alts : List (List Char)) (s : List Char) : Option (List Char × List Char) :=
  match alts with
  | [] => none
  | a :: as =>
    match matchCI a s with
    | some r => some r
    | none => tryAlts as s

/-- The bracketed branch `\[(n1|n2|...)\]` after the opening `[` has been
consumed: an alternative must match and be immediately followed by `]`.
Backtracking over alternatives is modelled by trying the next alternative
when the closing `]` is absent. -/
def tryBracket (alts : List (List Char)) (s : List Char) : Option (List Char × List Char) :=
  match alts with
  | [] => none
  | a :: as =>
    match matchCI a s with
    | some (g, ']' :: r) => some (g, r)
    | _ => tryBracket as s

/-- A regex match of the alternation pattern: absolute span `[mstart, mend)`
in the subject and the two capture groups (`g1` for `\[(...)\]`, `g2` for
the bare `(...)`), mirroring Python's `match.span` and `match.group`. -/
structure MatchInfo where
  mstart : Nat
  mend : Nat
  g1 : Option (List Char)
  g2 : Option (List Char)
deriving Repr, DecidableEq

/-- The bare branch `(alts)` of the pattern at one position: a group-2 match
spanning the matched text. -/
def tryBare (alts : List (List Char)) (pos : Nat) (s : List Char) :
    Option (MatchInfo × List Char) :=
  match tryAlts alts s with
  | some (m, r) =>
    some ({ mstart := pos, mend := pos + m.length, g1 := none, g2 := some m }, r)
  | none => none

/-- Try to match the full pattern `\[(alts)\]|(alts)` at one position:
the bracketed branch first (a group-1 match spanning `[`, the nick and `]`),
then the bare branch at the same position. -/
def tryMatchAt (alts : List (List Char)) (pos : Nat) (s : List Char) :
    Option (MatchInfo × List Char) :=
  match s with
  | [] => none
  | c :: cs =>
    if c = '[' then
      match tryBracket alts cs with
      | some (g, r) =>
        some ({ mstart := pos, mend := pos + g.length + 2, g1 := some g, g2 := none }, r)
      | none => tryBare alts pos (c :: cs)
    else tryBare alts pos (c :: cs)

/-- `replacement_callback` inside `Bot.sanitize_irc_names`, verbatim from the
source: a truthy group 1 passes the bare name through (explicit ping);
otherwise a group-2 match is kept unchanged when its first character is
alphanumeric and the preceding character exists and is alphanumeric, or its
last character is alphanumeric and the following character exists and is
alphanumeric; otherwise it is sanitized.  (The `Option.none`/empty fallbacks
mirror branches on which Python would raise; they are unreachable from the
scanner since all alternatives are nonempty.) -/
def replacement_callback (text : List Char) (m : MatchInfo) : List Char :=
  match m.g1 with
  | some (c :: g) => c :: g
  | _ =>
    match m.g2 with
    | some found =>
      if ((found.headD ' ').isAlphanum
          && (decide (0 < m.mstart) && (text.getD (m.mstart - 1) ' ').isAlphanum)) then
        found
      else if ((found.getLastD ' ').isAlphanum
          && (decide (m.mend < text.length) && (text.getD m.mend ' ').isAlphanum)) then
        found
      else
        sanitize_name found
    | none => []

/-- One fragment of the `re.sub` decomposition of the subject: either a
literal character between matches or a match (whose replacement is computed
by `replacement_callback`). -/
inductive Piece where
  | lit : Char → Piece
  | matched : MatchInfo → Piece
deriving Repr, DecidableEq

/-- The contribution of one piece to the output of `re.sub`. -/
def pieceOut (text : List Char) : Piece → List Char
  | .lit c => [c]
  | .matched m => replacement_callback text m

/-- The `re.sub` scan: at each position try the pattern; on a match resume
after its end, otherwise advance one character.  `fuel` makes the recursion
structural; every step consumes at least one character (all alternatives are
nonempty), so `fuel = length of the subject` never runs out. -/
def scanAux (alts : List (List Char)) : Nat → Nat → List Char → List Piece
  | 0, _, s => s.map Piece.lit
  | _ + 1, _, [] => []
  | fuel + 1, pos, c :: cs =>
    match tryMatchAt alts pos (c :: cs) with
    | some (m, rest) => Piece.matched m :: scanAux alts fuel m.mend rest
    | none => Piece.lit c :: scanAux alts fuel (pos + 1) cs

/-- `Bot.sanitize_irc_names text nicks`: sort the nonempty nicknames by
length descending, return the text unchanged when none remain, otherwise
substitute every pattern match via `replacement_callback`. -/
def sanitize_irc_names (text : List Char) (nicks : List (List Char)) : List Char :=
  let sorted_nicks := sortNicksDesc nicks
  if sorted_nicks.isEmpty then text
  else ((scanAux sorted_nicks text.length 0 text).map (pieceOut text)).flatten

/-- The visible rendering of a character list: U+FEFF is zero-width, so
removing it gives the characters a reader sees. -/
def stripInvisible (l : List Char) : List Char := l.filter (fun ch => ch != '\uFEFF')

/-! ## Mention resolver (`discord.py`, `Bot.relay_irc_message`) -/

/-- A destination member: display name paired with the opaque numeric id. -/
structure Member where
  name : List Char
  id : Nat

/-- Modelled from the spec: `channel.guild.get_member_named(username)` is the
external platform's membership lookup, specified in §4.3 as an exact,
case-sensitive match of the display name against the current member list. -/
def get_member_named (members : List Member) (username : List Char) : Option Member :=
  members.find? (fun u => u.name == username)

/-- The group of one `re.sub(r"\[(.*?)\]", ...)` match, given the characters
after the opening `[`: the shortest run of non-newline characters up to the
first `]` (`.` does not match a newline; the non-greedy `.*?` stops at the
first closing bracket).  Returns the group and the suffix after `]`. -/
def findGroup : List Char → Option (List Char × List Char)
  | [] => none
  | c :: cs =>
    if c = ']' then some ([], cs)
    else if c = '\n' then none
    else
      match findGroup cs with
      | some (g, r) => some (c :: g, r)
      | none => none

/-- The mention pass of `relay_irc_message`:
`re.sub(r"\[(.*?)\]", replacement_callback, text)` where the callback
returns `"<@%s>" % user.id` when `get_member_named` finds the bracketed
username and the bare username otherwise.  `fuel` makes the left-to-right
scan structural; every step consumes at least one character, so
`fuel = length of the subject` never runs out. -/
def mentionSubAux (members : List Member) : Nat → List Char → List Char
  | 0, s => s
  | _ + 1, [] => []
  | fuel + 1, c :: cs =>
    if c = '[' then
      match findGroup cs with
      | some (g, rest) =>
        (match get_member_named members g with
         | some u => '<' :: '@' :: (Nat.repr u.id).toList ++ ['>']
         | none => g) ++ mentionSubAux members fuel rest
      | none => c :: mentionSubAux members fuel cs
    else c :: mentionSubAux members fuel cs

/-- Entry point of the mention pass with enough fuel for the whole text. -/
def mentionSub (members : List Member) (text : List Char) : List Char :=
  mentionSubAux members text.length text

/-- `Bot.relay_irc_message`: build `"**<%s>** %s"` (or the action variant)
from the author and the formatted message, then run the mention pass over
the whole text.  The pypeul `Tags.parse` step inside `format_irc_message`
is external; the message body is taken as its parsed chunk list (plain text
with no control codes parses to a single untagged chunk). -/
def relay_irc_message (members : List Member) (who : List Char) (what : List Chunk)
    (action : Bool) : List Char :=
  let body := format_irc_message what
  let text :=
    if !action then "**<".toList ++ who ++ ">** ".toList ++ body
    else "＊ **".toList ++ who ++ "** ".toList ++ body
  mentionSub members text

/-! ## Events, `ObjectLike` and the dispatcher (`events.py`, `utils.py`) -/

/-- A Python value as stored in an event dictionary. -/
inductive PyVal where
  | none
  | bool : Bool → PyVal
  | int : Int → PyVal
  | str : String → PyVal
  | dict : List (String × PyVal) → PyVal

/-- `utils.ObjectLike`: a wrapper giving attribute-style access to a
dictionary, modelled as an association list (Python dict keys are unique;
lookup finds the first binding). -/
structure ObjectLike where
  dictlike : List (String × PyVal)

/-- The result of Python attribute access: either a plain value or a nested
`ObjectLike` wrapper. -/
inductive AttrResult where
  | val : PyVal → AttrResult
  | obj : ObjectLike → AttrResult

/-- `ObjectLike.__getattr__`: `val = self.dictlike.get(name)` (which yields
`None` when the key is missing); a dict value is wrapped in `ObjectLike`,
anything else is returned as is. -/
def ObjectLike.getattr (o : ObjectLike) (name : String) : AttrResult :=
  match List.lookup name o.dictlike with
  | some (PyVal.dict d) => AttrResult.obj ⟨d⟩
  | some v => AttrResult.val v
  | Option.none => AttrResult.val PyVal.none

/-- Python `d[k] = v` on a dict modelled as an association list: overwrite
the binding in place when the key exists, else append it. -/
def dictSet (d : List (String × PyVal)) (k : String) (v : PyVal) : List (String × PyVal) :=
  if d.any (fun p => p.1 == k) then d.map (fun p => if p.1 == k then (k, v) else p)
  else d ++ [(k, v)]

/-- Python `d.update(e)`: set every binding of `e` in `d`, in order. -/
def dictUpdate (d e : List (String × PyVal)) : List (String × PyVal) :=
  e.foldl (fun acc p => dictSet acc p.1 p.2) d

/-- The `@event(type)` decorator of `events.py`: the constructor's dictionary
gets `evt["type"] = type` stamped on it. -/
def eventWithType (ty : String) (fields : List (String × PyVal)) : List (String × PyVal) :=
  dictSet fields "type" (PyVal.str ty)

/-- `events.InternalLog`. -/
def InternalLog (level pathname : String) (lineno : Int) (msg args : String) :
    List (String × PyVal) :=
  eventWithType "internal_log"
    [("level", PyVal.str level), ("pathname", PyVal.str pathname),
     ("lineno", PyVal.int lineno), ("msg", PyVal.str msg), ("args", PyVal.str args)]

/-- `events.ConfigReload`. -/
def ConfigReload : List (String × PyVal) := eventWithType "config_reload" []

/-- `events.IRCMessage`. -/
def IRCMessage (who what : String) (action : Bool) : List (String × PyVal) :=
  eventWithType "irc_message"
    [("who", PyVal.str who), ("what", PyVal.str what), ("action", PyVal.bool action)]

/-- An event target as the dispatcher sees it: `accept_event` and
`push_event`, each of which may raise (modelled with `Except`). -/
structure Target where
  accept_event : ObjectLike → Except String Bool
  push_event : ObjectLike → Except String Unit

/-- What `Dispatcher.dispatch` does with one target: an exception from
either call is caught (and logged) as `errored`; otherwise the event is
`rejected` by `accept_event` or `delivered` through `push_event`. -/
inductive Outcome where
  | errored
  | rejected
  | delivered
deriving Repr, DecidableEq

/-- The body of the per-target `try` block in `Dispatcher.dispatch`. -/
def dispatchOne (tgt : Target) (evt : ObjectLike) : Outcome :=
  match tgt.accept_event evt with
  | Except.error _ => Outcome.errored
  | Except.ok false => Outcome.rejected
  | Except.ok true =>
    match tgt.push_event evt with
    | Except.error _ => Outcome.errored
    | Except.ok _ => Outcome.delivered

/-- The transmitted event of `Dispatcher.dispatch`:
`transmitted = {"source": source}; transmitted.update(evt)` wrapped in
`ObjectLike`. -/
def transmit (source : String) (evt : List (String × PyVal)) : ObjectLike :=
  ObjectLike.mk (dictUpdate [("source", PyVal.str source)] evt)

/-- `Dispatcher.dispatch`: each registered target, in registration order,
independently gets the transmitted event offered to `accept_event` and, on
acceptance, handed to `push_event`; errors are caught per target. -/
def dispatch (targets : List Target) (source : String) (evt : List (String × PyVal)) :
    List Outcome :=
  targets.map (fun tgt => dispatchOne tgt (transmit source evt))

/-- `discord.EventTarget.accept_event`: accepts exactly the `irc_message`
event type (a missing or non-string `type` is not in the list, as in
Python's `in`). -/
def discord_accept_event (evt : ObjectLike) : Bool :=
  match evt.getattr "type" with
  | AttrResult.val (PyVal.str s) => ["irc_message"].contains s
  | _ => false

/-- `ircclient.EventTarget.accept_event`: accepts exactly the four
`discord_*` event types. -/
def irc_accept_event (evt : ObjectLike) : Bool :=
  match evt.getattr "type" with
  | AttrResult.val (PyVal.str s) =>
    ["discord_message", "discord_message_edit",
     "discord_message_delete", "discord_reaction_add"].contains s
  | _ => false

/-- The registered Discord destination target: its `push_event` is
`queue.put`, which does not raise. -/
def discordTarget : Target :=
  ⟨fun evt => Except.ok (discord_accept_event evt), fun _ => Except.ok ()⟩

/-- The registered IRC destination target. -/
def ircTarget : Target :=
  ⟨fun evt => Except.ok (irc_accept_event evt), fun _ => Except.ok ()⟩

/-- A well-behaved test target that accepts and enqueues everything. -/
def okTarget : Target := ⟨fun _ => Except.ok true, fun _ => Except.ok ()⟩

/-- A broken test target whose `accept_event` raises. -/
def throwingAcceptTarget : Target :=
  ⟨fun _ => Except.error "accept_event raised", fun _ => Except.ok ()⟩

/-! ## Lemmas about the escape step -/

theorem ltSafeFrom_of_ltSafe {l : List Char} (h : ltSafe l = true) (p : Char) :
    ltSafeFrom p l = true := by
  cases l with
  | nil => rfl
  | cons c cs =>
    simp only [ltSafe, Bool.and_eq_true] at h
    simp only [ltSafeFrom, Bool.and_eq_true, Bool.or_eq_true]
    exact ⟨Or.inl h.1, h.2⟩

theorem ltSafeFrom_append {a b : List Char} {p : Char} (ha : ltSafeFrom p a = true)
    (hb : ltSafe b = true) : ltSafeFrom p (a ++ b) = true := by
  induction a generalizing p with
  | nil => simpa using ltSafeFrom_of_ltSafe hb p
  | cons c cs ih =>
    simp only [ltSafeFrom, Bool.and_eq_true] at ha
    simp only [List.cons_append, ltSafeFrom, Bool.and_eq_true]
    exact ⟨ha.1, ih ha.2⟩

theorem ltSafe_append {a b : List Char} (ha : ltSafe a = true) (hb : ltSafe b = true) :
    ltSafe (a ++ b) = true := by
  cases a with
  | nil => simpa using hb
  | cons c cs =>
    simp only [ltSafe, Bool.and_eq_true] at ha
    simp only [List.cons_append, ltSafe, Bool.and_eq_true]
    exact ⟨ha.1, ltSafeFrom_append ha.2 hb⟩

theorem ltSafeFrom_escLt (l : List Char) (p : Char) : ltSafeFrom p (escLt l) = true := by
  induction l generalizing p with
  | nil => rfl
  | cons c cs ih =>
    by_cases hc : c = '<'
    · subst hc
      exact ih '<'
    · have hcb : (c != '<') = true := by simpa using hc
      simp only [escLt, if_neg hc, ltSafeFrom, hcb, Bool.true_or, Bool.true_and]
      exact ih c

theorem ltSafe_escLt (l : List Char) : ltSafe (escLt l) = true := by
  cases l with
  | nil => rfl
  | cons c cs =>
    by_cases hc : c = '<'
    · subst hc
      exact ltSafeFrom_escLt cs '<'
    · have hcb : (c != '<') = true := by simpa using hc
      simp only [escLt, if_neg hc, ltSafe, hcb, Bool.true_and]
      exact ltSafeFrom_escLt cs c

theorem ltSafe_escape (t : List Char) : ltSafe (escape t) = true :=
  ltSafe_escLt (escBackslash t)

theorem ltSafe_wrapTag {marker t : List Char} (b : Bool) (hm : ltSafe marker = true)
    (ht : ltSafe t = true) : ltSafe (wrapTag b marker t) = true := by
  cases b with
  | false => simpa [wrapTag] using ht
  | true => simpa [wrapTag] using ltSafe_append (ltSafe_append hm ht) hm

theorem ltSafe_renderChunk (chunk : Chunk) : ltSafe (renderChunk chunk) = true := by
  by_cases hr : "reset" ∈ chunk.tags
  · simp only [renderChunk, if_pos hr]
    exact ltSafe_escape chunk.text
  · simp only [renderChunk, if_neg hr]
    exact ltSafe_wrapTag _ (by decide)
      (ltSafe_wrapTag _ (by decide)
        (ltSafe_wrapTag _ (by decide)
          (ltSafe_wrapTag _ (by decide)
            (ltSafe_wrapTag _ (by decide) (ltSafe_escape chunk.text)))))

theorem ltSafe_format_aux (chunks : List Chunk) (acc : List Char)
    (hacc : ltSafe acc = true) :
    ltSafe (chunks.foldl (fun ret chunk => ret ++ renderChunk chunk) acc) = true := by
  induction chunks generalizing acc with
  | nil => simpa using hacc
  | cons c cs ih =>
    exact ih _ (ltSafe_append hacc (ltSafe_renderChunk c))

/-! ## Claim theorems: formatting translator -/

/-- C1, counterexample: the escape step of `format_irc_message` touches only
backslash and `<`, so a source chunk carrying the literal, unstyled user
text `**x**` renders to exactly the same destination string as a chunk whose
text is `x` with the `bold` style attribute.  Any destination re-parse
therefore reads a bold attribute that was not present on the unstyled
source chunk: user-supplied text can forge destination styling, contrary to
the claim. -/
theorem c1_style_forgery_counterexample :
    format_irc_message [⟨"**x**".toList, []⟩] = format_irc_message [⟨"x".toList, ["bold"]⟩]
    ∧ escape "**x**".toList = "**x**".toList := by
  refine ⟨?_, ?_⟩ <;> decide

/-- C1, amended: the escape step rewrites backslash first (doubling it) and
then `<` (prefixing a backslash), strictly before any style wrapping; as a
result no rendered message ever contains an unescaped `<` (every `<` in the
output is immediately preceded by a backslash), so `<`-introduced
destination tokens cannot be forged by user text.  Destination style-marker
characters themselves are not escaped (see the counterexample). -/
theorem c1_escape_before_wrap :
    (∀ t : List Char, escape t = escLt (escBackslash t))
    ∧ (∀ chunks : List Chunk, ltSafe (format_irc_message chunks) = true) :=
  ⟨fun _ => rfl, fun chunks => ltSafe_format_aux chunks [] rfl⟩

/-- C8: the escape step of `format_irc_message` is not idempotent.  For the
already-escaped text `escape "<"` (namely `\<`), applying the escape step
twice yields a different string from applying it once — so escaping must not
be naively repeated, and must happen strictly before wrapping. -/
theorem c8_escape_not_idempotent :
    escape (escape (escape "<".toList)) ≠ escape (escape "<".toList) := by decide

/-! ## Claim theorems: dispatcher and ObjectLike -/

/-- C2: dispatch isolates targets from each other.  Splitting the registry
anywhere, each target's outcome is computed independently from the same
transmitted event (so an exception raised by one target's `accept_event` or
`push_event` is caught there and every later-registered target still gets
`accept_event`, and `push_event` on acceptance, for that event); concretely,
with three registered targets whose middle one raises on accept, the first
and third targets still receive the event. -/
theorem c2_dispatch_continues_past_errors :
    (∀ (pre post : List Target) (tgt : Target) (source : String)
        (evt : List (String × PyVal)),
      dispatch (pre ++ tgt :: post) source evt =
        dispatch pre source evt
          ++ dispatchOne tgt (transmit source evt) :: dispatch post source evt)
    ∧ dispatch [okTarget, throwingAcceptTarget, okTarget] "irc" (IRCMessage "alice" "hi" false)
        = [Outcome.delivered, Outcome.errored, Outcome.delivered] :=
  ⟨fun pre post tgt source evt => by simp [dispatch], rfl⟩

/-- C9: `ObjectLike.__getattr__` is total on missing keys and wraps nested
dictionaries.  Attribute access for a name absent from the underlying
dictionary returns Python `None` (never raises), and access for a name bound
to a nested dictionary returns that dictionary wrapped as an `ObjectLike`. -/
theorem c9_getattr_total :
    (∀ (o : ObjectLike) (name : String),
      List.lookup name o.dictlike = Option.none →
        o.getattr name = AttrResult.val PyVal.none)
    ∧ (∀ (o : ObjectLike) (name : String) (d : List (String × PyVal)),
      List.lookup name o.dictlike = some (PyVal.dict d) →
        o.getattr name = AttrResult.obj ⟨d⟩) := by
  constructor
  · intro o name h
    simp [ObjectLike.getattr, h]
  · intro o name d h
    simp [ObjectLike.getattr, h]

/-- C9 witness: reading the missing field `msg` of a dispatched
`irc_message` payload yields `None`, and a nested dictionary field comes
back wrapped. -/
theorem c9_getattr_total_witness :
    ObjectLike.getattr ⟨[("who", PyVal.str "alice"), ("what", PyVal.str "hi")]⟩ "msg"
      = AttrResult.val PyVal.none
    ∧ ObjectLike.getattr ⟨[("payload", PyVal.dict [("lineno", PyVal.int 3)])]⟩ "payload"
      = AttrResult.obj ⟨[("lineno", PyVal.int 3)]⟩ :=
  ⟨c9_getattr_total.1 ⟨[("who", PyVal.str "alice"), ("what", PyVal.str "hi")]⟩ "msg" rfl,
   c9_getattr_total.2 ⟨[("payload", PyVal.dict [("lineno", PyVal.int 3)])]⟩ "payload"
     [("lineno", PyVal.int 3)] rfl⟩

/-- C10: the two registered destination targets accept disjoint,
relay-only event types.  For every `internal_log` and every `config_reload`
event, `accept_event` of both the Discord target (which accepts only
`irc_message`) and the IRC target (which accepts only the four `discord_*`
types) returns false, so dispatch rejects the event at both targets and it
is never enqueued on (hence never processed by) either destination. -/
theorem c10_internal_events_rejected :
    (∀ (source level pathname msg args : String) (lineno : Int),
      dispatch [discordTarget, ircTarget] source (InternalLog level pathname lineno msg args)
        = [Outcome.rejected, Outcome.rejected])
    ∧ (∀ source : String,
      dispatch [discordTarget, ircTarget] source ConfigReload
        = [Outcome.rejected, Outcome.rejected]) :=
  ⟨fun _ _ _ _ _ _ => rfl, fun _ => rfl⟩

/-! ## Lemmas about the sanitizer scan -/

theorem matchCI_length : ∀ (a s g r : List Char), matchCI a s = some (g, r) →
    g.length = a.length := by
  intro a
  induction a with
  | nil =>
    intro s g r h
    simp only [matchCI, Option.some.injEq, Prod.mk.injEq] at h
    simp [← h.1]
  | cons a as ih =>
    intro s g r h
    cases s with
    | nil => simp [matchCI] at h
    | cons c cs =>
      by_cases hci : ciEq a c = true
      · simp only [matchCI, hci, if_true] at h
        cases hm : matchCI as cs with
        | none => rw [hm] at h; exact absurd h (by simp)
        | some p =>
          obtain ⟨m, r'⟩ := p
          rw [hm] at h
          simp only [Option.some.injEq, Prod.mk.injEq] at h
          rw [← h.1]
          simp [ih cs m r' hm]
      · have hci' : ciEq a c = false := by
          cases hcc : ciEq a c
          · rfl
          · exact absurd hcc hci
        simp [matchCI, hci'] at h

theorem tryBracket_exists : ∀ (alts : List (List Char)) (s g r : List Char),
    tryBracket alts s = some (g, r) → ∃ a ∈ alts, g.length = a.length := by
  intro alts
  induction alts with
  | nil => intro s g r h; simp [tryBracket] at h
  | cons a as ih =>
    intro s g r h
    simp only [tryBracket] at h
    split at h
    · next g0 r0 hm =>
      simp only [Option.some.injEq, Prod.mk.injEq] at h
      refine ⟨a, List.mem_cons_self a as, ?_⟩
      rw [← h.1]
      exact matchCI_length a s g0 (']' :: r0) hm
    · next =>
      obtain ⟨a', ha', hl⟩ := ih s g r h
      exact ⟨a', List.mem_cons_of_mem a ha', hl⟩

theorem tryBare_g1 : ∀ (alts : List (List Char)) (pos : Nat) (s : List Char)
    (mi : MatchInfo) (rest : List Char),
    tryBare alts pos s = some (mi, rest) → mi.g1 = Option.none := by
  intro alts pos s mi rest h
  simp only [tryBare] at h
  split at h
  · next m r hm =>
    simp only [Option.some.injEq, Prod.mk.injEq] at h
    rw [← h.1]
  · exact absurd h (by simp)

theorem tryMatchAt_g1_nonempty (alts : List (List Char)) (hne : ∀ a ∈ alts, a ≠ [])
    (pos : Nat) (s : List Char) (mi : MatchInfo) (rest g : List Char)
    (h : tryMatchAt alts pos s = some (mi, rest)) (hg1 : mi.g1 = some g) : g ≠ [] := by
  cases s with
  | nil => simp [tryMatchAt] at h
  | cons c cs =>
    by_cases hc : c = '['
    · simp only [tryMatchAt, if_pos hc] at h
      cases hb : tryBracket alts cs with
      | some p =>
        obtain ⟨g0, r0⟩ := p
        rw [hb] at h
        simp only [Option.some.injEq, Prod.mk.injEq] at h
        rw [← h.1] at hg1
        simp only [Option.some.injEq] at hg1
        obtain ⟨a, ha, hl⟩ := tryBracket_exists alts cs g0 r0 hb
        intro hnil
        apply hne a ha
        apply List.eq_nil_of_length_eq_zero
        rw [← hl, hg1, hnil]
        rfl
      | none =>
        rw [hb] at h
        rw [tryBare_g1 alts pos (c :: cs) mi rest h] at hg1
        exact absurd hg1 (by simp)
    · simp only [tryMatchAt, if_neg hc] at h
      rw [tryBare_g1 alts pos (c :: cs) mi rest h] at hg1
      exact absurd hg1 (by simp)

theorem scanAux_g1_nonempty (alts : List (List Char)) (hne : ∀ a ∈ alts, a ≠ []) :
    ∀ (fuel pos : Nat) (s : List Char) (m : MatchInfo) (g : List Char),
      Piece.matched m ∈ scanAux alts fuel pos s → m.g1 = some g → g ≠ [] := by
  intro fuel
  induction fuel with
  | zero =>
    intro pos s m g hmem _
    simp only [scanAux, List.mem_map] at hmem
    obtain ⟨c, _, hcm⟩ := hmem
    exact absurd hcm (by simp)
  | succ fuel ih =>
    intro pos s m g hmem hg1
    cases s with
    | nil => simp [scanAux] at hmem
    | cons c cs =>
      rw [scanAux] at hmem
      cases e : tryMatchAt alts pos (c :: cs) with
      | some p =>
        obtain ⟨mi, rest⟩ := p
        rw [e] at hmem
        rcases List.mem_cons.1 hmem with heq | htail
        · have hmi : m = mi := by injection heq
          subst hmi
          exact tryMatchAt_g1_nonempty alts hne pos (c :: cs) m rest g e hg1
        · exact ih mi.mend rest m g htail hg1
      | none =>
        rw [e] at hmem
        rcases List.mem_cons.1 hmem with heq | htail
        · exact absurd heq (by simp)
        · exact ih (pos + 1) cs m g htail hg1

theorem getLastD_mem : ∀ (l : List Char) (d : Char), l ≠ [] → l.getLastD d ∈ l := by
  intro l
  induction l with
  | nil => intro d h; exact absurd rfl h
  | cons a as ih =>
    intro d _
    cases as with
    | nil => simp
    | cons b bs =>
      rw [List.getLastD_cons]
      exact List.mem_cons_of_mem a (ih a (by simp))

/-- The guarded branches of `replacement_callback`: a group-2 match whose
first character is alphanumeric with an alphanumeric character immediately
before it, or whose last character is alphanumeric with an alphanumeric
character immediately after it, is returned unchanged. -/
theorem callback_keeps_guarded (text : List Char) (m : MatchInfo) (found : List Char)
    (h1 : m.g1 = Option.none) (h2 : m.g2 = some found)
    (hg : (((found.headD ' ').isAlphanum
        && (decide (0 < m.mstart) && (text.getD (m.mstart - 1) ' ').isAlphanum)) = true
      ∨ ((found.getLastD ' ').isAlphanum
        && (decide (m.mend < text.length) && (text.getD m.mend ' ').isAlphanum)) = true)) :
    replacement_callback text m = found := by
  obtain ⟨ms, me, g1, g2⟩ := m
  simp only at h1 h2
  subst h1
  subst h2
  simp only at hg ⊢
  show (if ((found.headD ' ').isAlphanum
          && (decide (0 < ms) && (text.getD (ms - 1) ' ').isAlphanum)) then found
        else if ((found.getLastD ' ').isAlphanum
          && (decide (me < text.length) && (text.getD me ' ').isAlphanum)) then found
        else sanitize_name found) = found
  rcases hg with hg | hg
  · rw [if_pos hg]
  · cases hb : ((found.headD ' ').isAlphanum
        && (decide (0 < ms) && (text.getD (ms - 1) ' ').isAlphanum)) with
    | true => rw [if_pos rfl]
    | false =>
      rw [if_neg (fun h => Bool.false_ne_true h), if_pos hg]

theorem mem_insertByLenDesc {x n : List Char} :
    ∀ {l : List (List Char)}, x ∈ insertByLenDesc n l → x = n ∨ x ∈ l := by
  intro l
  induction l with
  | nil =>
    intro h
    simp only [insertByLenDesc, List.mem_singleton] at h
    exact Or.inl h
  | cons m ms ih =>
    intro h
    by_cases hc : m.length ≤ n.length
    · simp only [insertByLenDesc, if_pos hc] at h
      rcases List.mem_cons.1 h with h1 | h1
      · exact Or.inl h1
      · exact Or.inr h1
    · simp only [insertByLenDesc, if_neg hc] at h
      rcases List.mem_cons.1 h with h1 | h1
      · exact Or.inr (by rw [h1]; exact List.mem_cons_self m ms)
      · rcases ih h1 with h2 | h2
        · exact Or.inl h2
        · exact Or.inr (List.mem_cons_of_mem m h2)

theorem pairwise_insertByLenDesc {n : List Char} :
    ∀ {l : List (List Char)},
      l.Pairwise (fun a b => b.length ≤ a.length) →
      (insertByLenDesc n l).Pairwise (fun a b => b.length ≤ a.length) := by
  intro l
  induction l with
  | nil => intro _; simp [insertByLenDesc]
  | cons m ms ih =>
    intro h
    rcases List.pairwise_cons.1 h with ⟨hm, hms⟩
    by_cases hc : m.length ≤ n.length
    · simp only [insertByLenDesc, if_pos hc]
      refine List.pairwise_cons.2 ⟨?_, h⟩
      intro x hx
      rcases List.mem_cons.1 hx with h1 | h1
      · rw [h1]; exact hc
      · exact Nat.le_trans (hm x h1) hc
    · simp only [insertByLenDesc, if_neg hc]
      refine List.pairwise_cons.2 ⟨?_, ih hms⟩
      intro x hx
      rcases mem_insertByLenDesc hx with h1 | h1
      · rw [h1]; exact Nat.le_of_lt (Nat.lt_of_not_le hc)
      · exact hm x h1

theorem pairwise_sortNicksDesc (nicks : List (List Char)) :
    (sortNicksDesc nicks).Pairwise (fun a b => b.length ≤ a.length) := by
  unfold sortNicksDesc
  generalize (nicks.filter fun n => !n.isEmpty) = l
  induction l with
  | nil => simp
  | cons m ms ih => exact pairwise_insertByLenDesc ih

/-! ## Claim theorems: nick sanitizer -/

/-- C3, counterexample: the claim says a bare occurrence is left untouched
whenever an adjacent character is alphanumeric.  The code additionally
requires the match's own edge character to be alphanumeric, so the
IRC-legal nickname `|bob|` inside `a|bob|c` is sanitized even though both
neighbours (`a` and `c`) are alphanumeric. -/
theorem c3_boundary_counterexample :
    'a'.isAlphanum = true ∧ 'c'.isAlphanum = true
    ∧ sanitize_irc_names "a|bob|c".toList ["|bob|".toList] = "a|﻿bob|c".toList
    ∧ sanitize_irc_names "a|bob|c".toList ["|bob|".toList] ≠ "a|bob|c".toList := by
  refine ⟨rfl, rfl, by decide, by decide⟩

/-- C3, amended: a bare (group-2) match is left untouched whenever its first
character is alphanumeric and the character immediately before the match
exists and is alphanumeric, or its last character is alphanumeric and the
character immediately after exists and is alphanumeric; in particular every
all-alphanumeric match that overlaps a longer alphanumeric token (an
adjacent alphanumeric character on either side) is left unmodified — no
false-positive sanitization. -/
theorem c3_word_boundary_guard :
    (∀ (text : List Char) (m : MatchInfo) (found : List Char),
      m.g1 = Option.none → m.g2 = some found →
      ((((found.headD ' ').isAlphanum
          && (decide (0 < m.mstart) && (text.getD (m.mstart - 1) ' ').isAlphanum)) = true)
        ∨ (((found.getLastD ' ').isAlphanum
          && (decide (m.mend < text.length) && (text.getD m.mend ' ').isAlphanum)) = true)) →
      replacement_callback text m = found)
    ∧ (∀ (text : List Char) (m : MatchInfo) (found : List Char),
      m.g1 = Option.none → m.g2 = some found → found ≠ [] →
      (∀ ch ∈ found, ch.isAlphanum = true) →
      ((0 < m.mstart ∧ (text.getD (m.mstart - 1) ' ').isAlphanum = true)
        ∨ (m.mend < text.length ∧ (text.getD m.mend ' ').isAlphanum = true)) →
      replacement_callback text m = found) := by
  constructor
  · exact fun text m found => callback_keeps_guarded text m found
  · intro text m found h1 h2 hne hall hside
    rcases hside with hp | hp
    · obtain ⟨c, rest, rfl⟩ : ∃ c rest, found = c :: rest := by
        cases found with
        | nil => exact absurd rfl hne
        | cons c rest => exact ⟨c, rest, rfl⟩
      have hhead : ((c :: rest).headD ' ').isAlphanum = true :=
        hall c (List.mem_cons_self c rest)
      refine callback_keeps_guarded text m (c :: rest) h1 h2 (Or.inl ?_)
      rw [Bool.and_eq_true, Bool.and_eq_true]
      exact ⟨hhead, decide_eq_true hp.1, hp.2⟩
    · have hlast : (found.getLastD ' ').isAlphanum = true :=
        hall _ (getLastD_mem found ' ' hne)
      refine callback_keeps_guarded text m found h1 h2 (Or.inr ?_)
      rw [Bool.and_eq_true, Bool.and_eq_true]
      exact ⟨hlast, decide_eq_true hp.1, hp.2⟩

/-- C3 witness: the bare match `bob` at span `[1, 4)` of `xbob` has the
alphanumeric character `x` immediately before it, so the callback returns it
unchanged. -/
theorem c3_word_boundary_guard_witness :
    replacement_callback "xbob".toList ⟨1, 4, Option.none, some "bob".toList⟩
      = "bob".toList :=
  c3_word_boundary_guard.1 "xbob".toList ⟨1, 4, Option.none, some "bob".toList⟩
    "bob".toList rfl rfl (Or.inl (by decide))

/-- C4, counterexample: with the IRC-legal nicknames `[bob` and `bob` both
known and the text `[bob`, the nickname `bob` appears as a standalone word
(preceded by the non-alphanumeric `[`, followed by nothing), yet the scan
matches the longer overlapping nickname `[bob` first, so no occurrence is
replaced by `sanitize_name "bob"` (the claimed first-char/U+FEFF/remainder
form never appears in the output). -/
theorem c4_counterexample :
    sanitize_irc_names "[bob".toList ["[bob".toList, "bob".toList] = "[﻿bob".toList
    ∧ ¬ ("b﻿ob".toList <:+: "[﻿bob".toList)
    ∧ sanitize_name "bob".toList = "b﻿ob".toList
    ∧ '['.isAlphanum = false := by
  refine ⟨by decide, by decide, by decide, rfl⟩

/-- C4, amended: every bare (group-2) match that fails both word-boundary
guards is replaced by `sanitize_name` of the matched text — its first
character, then the zero-width code point U+FEFF, then the remainder — which
renders visually identically (equal after removing U+FEFF) but is not equal
to the matched text.  (A standalone occurrence is replaced in this form
exactly when it is the match the scanner selects; an overlapping longer
nickname can take precedence, as the counterexample shows.) -/
theorem c4_sanitized_match_shape :
    ∀ (text : List Char) (m : MatchInfo) (c : Char) (rest : List Char),
      m.g1 = Option.none → m.g2 = some (c :: rest) →
      (((c :: rest).headD ' ').isAlphanum
        && (decide (0 < m.mstart) && (text.getD (m.mstart - 1) ' ').isAlphanum)) = false →
      (((c :: rest).getLastD ' ').isAlphanum
        && (decide (m.mend < text.length) && (text.getD m.mend ' ').isAlphanum)) = false →
      sanitize_name (c :: rest) = c :: '﻿' :: rest
      ∧ replacement_callback text m = c :: '﻿' :: rest
      ∧ c :: '﻿' :: rest ≠ c :: rest
      ∧ stripInvisible (c :: '﻿' :: rest) = stripInvisible (c :: rest) := by
  intro text m c rest h1 h2 hb1 hb2
  obtain ⟨ms, me, g1, g2⟩ := m
  simp only at h1 h2 hb1 hb2
  subst h1
  subst h2
  refine ⟨?_, ?_, ?_, ?_⟩
  · rfl
  · show (if (((c :: rest).headD ' ').isAlphanum
          && (decide (0 < ms) && (text.getD (ms - 1) ' ').isAlphanum)) then c :: rest
        else if (((c :: rest).getLastD ' ').isAlphanum
          && (decide (me < text.length) && (text.getD me ' ').isAlphanum)) then c :: rest
        else sanitize_name (c :: rest)) = c :: '﻿' :: rest
    rw [if_neg (by rw [hb1]; exact fun h => Bool.false_ne_true h),
      if_neg (by rw [hb2]; exact fun h => Bool.false_ne_true h)]
    rfl
  · intro h
    have hlen := congrArg List.length h
    simp at hlen
  · have hfe : (('﻿' : Char) != '﻿') = false := by decide
    simp [stripInvisible, List.filter_cons, hfe]

/-- C4 witness: the bare match `bob` spanning all of the text `bob` fails
both boundary guards and is replaced by `b`, U+FEFF, `ob`. -/
theorem c4_sanitized_match_shape_witness :
    sanitize_name ('b' :: "ob".toList) = 'b' :: '﻿' :: "ob".toList
    ∧ replacement_callback "bob".toList ⟨0, 3, Option.none, some ('b' :: "ob".toList)⟩
        = 'b' :: '﻿' :: "ob".toList
    ∧ 'b' :: '﻿' :: "ob".toList ≠ 'b' :: "ob".toList
    ∧ stripInvisible ('b' :: '﻿' :: "ob".toList) = stripInvisible ('b' :: "ob".toList) :=
  c4_sanitized_match_shape "bob".toList ⟨0, 3, Option.none, some ('b' :: "ob".toList)⟩
    'b' "ob".toList rfl rfl (by decide) (by decide)

/-- C6: every group-1 (bracket-wrapped) match of the sanitizer's alternation
pattern is replaced by its captured bare name, unsanitized — the brackets
are stripped and the name passes through unmodified; end to end,
`hi [bob]` with nickname `bob` becomes `hi bob`. -/
theorem c6_bracket_passthrough :
    (∀ (alts : List (List Char)) (fuel pos : Nat) (s text : List Char)
        (m : MatchInfo) (g : List Char),
      (∀ a ∈ alts, a ≠ []) →
      Piece.matched m ∈ scanAux alts fuel pos s →
      m.g1 = some g →
      g ≠ [] ∧ pieceOut text (Piece.matched m) = g)
    ∧ sanitize_irc_names "hi [bob]".toList ["bob".toList] = "hi bob".toList := by
  constructor
  · intro alts fuel pos s text m g hne hmem hg1
    have hgne := scanAux_g1_nonempty alts hne fuel pos s m g hmem hg1
    refine ⟨hgne, ?_⟩
    cases g with
    | nil => exact absurd rfl hgne
    | cons c g' =>
      show replacement_callback text m = c :: g'
      obtain ⟨ms, me, g1, g2⟩ := m
      simp only at hg1
      subst hg1
      rfl
  · decide

/-- C6 witness: in the scan of `hi [bob]` with nickname `bob`, the
group-1 match at span `[3, 8)` contributes exactly `bob` to the output. -/
theorem c6_bracket_passthrough_witness :
    "bob".toList ≠ []
    ∧ pieceOut "hi [bob]".toList
        (Piece.matched ⟨3, 8, some "bob".toList, Option.none⟩) = "bob".toList :=
  c6_bracket_passthrough.1 ["bob".toList] 8 0 "hi [bob]".toList "hi [bob]".toList
    ⟨3, 8, some "bob".toList, Option.none⟩ "bob".toList (by decide) (by decide) rfl

/-- C7: the alternation pattern is built from the nicknames sorted by length
descending (`sortNicksDesc` is length-sorted for every input), so a longer
nickname containing a shorter one is tried first: with `Oat` and
`OatmealDome` both known, the scan of `OatmealDome` produces exactly one
match — the full token, never the `Oat` prefix — and the full token is
sanitized. -/
theorem c7_longest_match_first :
    (∀ nicks : List (List Char),
      (sortNicksDesc nicks).Pairwise (fun a b => b.length ≤ a.length))
    ∧ sortNicksDesc ["Oat".toList, "OatmealDome".toList]
        = ["OatmealDome".toList, "Oat".toList]
    ∧ scanAux (sortNicksDesc ["Oat".toList, "OatmealDome".toList]) 11 0
        "OatmealDome".toList
        = [Piece.matched ⟨0, 11, Option.none, some "OatmealDome".toList⟩]
    ∧ sanitize_irc_names "OatmealDome".toList ["Oat".toList, "OatmealDome".toList]
        = "O﻿atmealDome".toList :=
  ⟨pairwise_sortNicksDesc, by decide, by decide, by decide⟩

/-! ## Lemmas about the mention pass -/

theorem findGroup_closed : ∀ (name rest : List Char), ']' ∉ name → '\n' ∉ name →
    findGroup (name ++ ']' :: rest) = some (name, rest) := by
  intro name
  induction name with
  | nil =>
    intro rest _ _
    simp [findGroup]
  | cons c cs ih =>
    intro rest h1 h2
    have hc1 : ¬ (c = ']') := fun h => h1 (by rw [h]; exact List.mem_cons_self ']' cs)
    have hc2 : ¬ (c = '\n') := fun h => h2 (by rw [h]; exact List.mem_cons_self '\n' cs)
    have h1' : ']' ∉ cs := fun h => h1 (List.mem_cons_of_mem c h)
    have h2' : '\n' ∉ cs := fun h => h2 (List.mem_cons_of_mem c h)
    rw [List.cons_append]
    simp only [findGroup, if_neg hc1, if_neg hc2, ih rest h1' h2']

theorem mentionSubAux_nil (members : List Member) (fuel : Nat) :
    mentionSubAux members (fuel + 1) [] = [] := rfl

/-! ## Claim theorems: mention resolver -/

/-- C5: in the outbound mention pass, a bracketed token `[name]` is replaced
by the destination's native mention token `<@id>` when `name` is a current
member's display name and by the bare `name` (brackets dropped) otherwise;
end to end, relaying the IRC line `who="alice"`, `what="hello [bob]"` with
destination member `bob` of id 42 yields a message containing the native
mention token for id 42, the literal text `hello`, and the author rendered
as `alice`. -/
theorem c5_mention_resolution :
    (∀ (members : List Member) (name : List Char),
      ']' ∉ name → '\n' ∉ name →
      mentionSub members ('[' :: (name ++ [']'])) =
        (match get_member_named members name with
         | some u => '<' :: '@' :: (Nat.repr u.id).toList ++ ['>']
         | Option.none => name))
    ∧ relay_irc_message [⟨"bob".toList, 42⟩] "alice".toList
        [⟨"hello [bob]".toList, []⟩] false
        = "**<alice>** hello <@42>".toList
    ∧ "<@42>".toList <:+: relay_irc_message [⟨"bob".toList, 42⟩] "alice".toList
        [⟨"hello [bob]".toList, []⟩] false
    ∧ "hello".toList <:+: relay_irc_message [⟨"bob".toList, 42⟩] "alice".toList
        [⟨"hello [bob]".toList, []⟩] false
    ∧ "alice".toList <:+: relay_irc_message [⟨"bob".toList, 42⟩] "alice".toList
        [⟨"hello [bob]".toList, []⟩] false := by
  refine ⟨?_, by decide, by decide, by decide, by decide⟩
  intro members name h1 h2
  have hlen : ('[' :: (name ++ [']'])).length = name.length + 1 + 1 := by
    simp
  rw [mentionSub, hlen]
  simp only [mentionSubAux, if_pos rfl]
  rw [show name ++ [']'] = name ++ ']' :: [] from rfl, findGroup_closed name [] h1 h2]
  cases hm : get_member_named members name with
  | none => simp [mentionSubAux_nil, hm]
  | some u => simp [mentionSubAux_nil, hm]

/-- C5 witness: the single token `[bob]` with member `bob` of id 42 resolves
to the native mention token `<@42>`. -/
theorem c5_mention_resolution_witness :
    mentionSub [⟨"bob".toList, 42⟩] ('[' :: ("bob".toList ++ [']'])) = "<@42>".toList := by
  have h := c5_mention_resolution.1 [⟨"bob".toList, 42⟩] "bob".toList
    (by decide) (by decide)
  exact h.trans (by decide)

end ChatBridge
